import Mathlib

/-!
Verification of the LogoShaper magic-eraser core (src/GEMINI.md):
the color-distance primitive, the multi-layer alpha compositor and the
separable choke (morphological erosion) filter.

Modelling conventions (shallow embedding of the TypeScript source):
JavaScript numbers appearing as layer parameters and the choke radius are
modelled as exact rationals; the square root in colorDistance forces the
per-pixel compositor arithmetic into the reals.  The RGBA pixel buffer
(a Uint8ClampedArray) is modelled as its length together with a total
function from flat indices to byte values; reads the source never performs
outside the loop bounds are irrelevant to the model.  In-place mutation is
modelled functionally: every loop of the source writes each cell at most
once and reads only cells no iteration writes, so each pass is expressed
as the function it computes.  Clamped byte stores are modelled by
clampByte.  Nat subtraction x - r coincides with the source's
Math.max(0, x - r) clamping.
-/

namespace LogoShaper

/-- An RGB triple as produced by getPixelColor (fields of a layer color). -/
structure RGBColor where
  r : ℤ
  g : ℤ
  b : ℤ
deriving DecidableEq

/-- EraserLayer from the source: target color (nullable), tolerance 0-100,
feather 0-20, transparency 0-100, and the isActive gate. -/
structure EraserLayer where
  id : String
  color : Option RGBColor
  tolerance : ℚ
  feather : ℚ
  transparency : ℚ
  isActive : Bool
deriving DecidableEq

/-- ProcessingParams from the source: ordered layer list plus global choke. -/
structure ProcessingParams where
  layers : List EraserLayer
  choke : ℚ

/-- ImageData: width, height, the buffer length (data.length of the
Uint8ClampedArray) and the flat RGBA byte buffer. -/
structure ImageData where
  width : ℕ
  height : ℕ
  len : ℕ
  data : ℕ → ℕ

/-- Source colorDistance: Euclidean distance of two RGB triples divided by
the literal 441.67. -/
noncomputable def colorDistance (r1 g1 b1 r2 g2 b2 : ℤ) : ℝ :=
  Real.sqrt (((r1 - r2) * (r1 - r2) + (g1 - g2) * (g1 - g2)
      + (b1 - b2) * (b1 - b2) : ℤ)) / 441.67

/-- A clamped byte store of an integer into a Uint8ClampedArray cell. -/
def clampByte (x : ℤ) : ℕ :=
  (min 255 (max 0 x)).toNat

/-- The inner minimum loop of both choke passes: running minimum,
initialised at 255, of f over the inclusive index window [lo, hi]. -/
def windowMin (f : ℕ → ℕ) (lo hi : ℕ) : ℕ :=
  (List.range (hi + 1 - lo)).foldl (fun m t => min m (f (lo + t))) 255

/-- The alpha channel copy taken by applyChoke before pass 1
(originalAlpha); a read beyond the buffer stores 0 in the Uint8Array. -/
def chokeAlphaOrig (img : ImageData) (i : ℕ) : ℕ :=
  if 4 * i + 3 < img.len then img.data (4 * i + 3) else 0

/-- Pass 1 of applyChoke (horizontal min into tempAlpha) at column x of
row y: minimum of originalAlpha over [x-r, x+r] clamped to the row. -/
def chokeTemp (img : ImageData) (r x y : ℕ) : ℕ :=
  windowMin (fun k => chokeAlphaOrig img (y * img.width + k))
    (x - r) (min (img.width - 1) (x + r))

/-- Pass 2 of applyChoke (vertical min over tempAlpha) at pixel (x, y):
minimum of the pass-1 values over [y-r, y+r] clamped to the column. -/
def chokeVert (img : ImageData) (r x y : ℕ) : ℕ :=
  windowMin (fun k => chokeTemp img r x k)
    (y - r) (min (img.height - 1) (y + r))

/-- Source applyChoke: no-op for radius at most 0, otherwise the two
sequential min passes with r = ceil(radius), written back to the alpha
cell only when the new minimum reduces it. -/
def applyChoke (img : ImageData) (radius : ℚ) : ImageData :=
  if radius ≤ 0 then img
  else
    { img with
      data := fun j =>
        if j % 4 = 3 ∧ j / 4 < img.width * img.height ∧ j < img.len then
          if chokeVert img (Int.toNat ⌈radius⌉) (j / 4 % img.width)
              (j / 4 / img.width) < img.data j then
            chokeVert img (Int.toNat ⌈radius⌉) (j / 4 % img.width)
              (j / 4 / img.width)
          else img.data j
        else img.data j }

section FoldMinLemmas

variable {g : ℕ → ℕ}

theorem foldl_min_le_init (l : List ℕ) (g : ℕ → ℕ) (b : ℕ) :
    l.foldl (fun m t => min m (g t)) b ≤ b := by
  induction l generalizing b with
  | nil => exact le_rfl
  | cons a l ih => exact le_trans (ih _) (min_le_left _ _)

theorem le_foldl_min (l : List ℕ) (g : ℕ → ℕ) (b c : ℕ) :
    c ≤ l.foldl (fun m t => min m (g t)) b ↔ c ≤ b ∧ ∀ t ∈ l, c ≤ g t := by
  induction l generalizing b with
  | nil => simp
  | cons a l ih =>
    simp only [List.foldl_cons, ih, le_min_iff, List.mem_cons]
    constructor
    · rintro ⟨⟨hb, ha⟩, hl⟩
      exact ⟨hb, fun t ht => ht.elim (fun e => e ▸ ha) (hl t)⟩
    · rintro ⟨hb, hl⟩
      exact ⟨⟨hb, hl a (Or.inl rfl)⟩, fun t ht => hl t (Or.inr ht)⟩

theorem foldl_min_cases (l : List ℕ) (g : ℕ → ℕ) (b : ℕ) :
    l.foldl (fun m t => min m (g t)) b = b ∨
      ∃ t ∈ l, l.foldl (fun m t => min m (g t)) b = g t := by
  induction l generalizing b with
  | nil => exact Or.inl rfl
  | cons a l ih =>
    rcases ih (min b (g a)) with h | ⟨t, ht, he⟩
    · rcases min_cases b (g a) with ⟨hm, _⟩ | ⟨hm, _⟩
      · exact Or.inl (by simpa [hm] using h)
      · exact Or.inr ⟨a, List.mem_cons_self _ _, by simpa [hm] using h⟩
    · exact Or.inr ⟨t, List.mem_cons_of_mem _ ht, he⟩

theorem le_windowMin (f : ℕ → ℕ) (lo hi c : ℕ) :
    c ≤ windowMin f lo hi ↔ c ≤ 255 ∧ ∀ k, lo ≤ k → k ≤ hi → c ≤ f k := by
  unfold windowMin
  rw [le_foldl_min]
  constructor
  · rintro ⟨h255, hall⟩
    refine ⟨h255, fun k hlo khi => ?_⟩
    have hmem : k - lo ∈ List.range (hi + 1 - lo) := by
      rw [List.mem_range]; omega
    have h := hall _ hmem
    have hk : lo + (k - lo) = k := by omega
    rwa [hk] at h
  · rintro ⟨h255, hall⟩
    refine ⟨h255, fun t ht => ?_⟩
    rw [List.mem_range] at ht
    exact hall _ (by omega) (by omega)

theorem windowMin_le_255 (f : ℕ → ℕ) (lo hi : ℕ) : windowMin f lo hi ≤ 255 :=
  foldl_min_le_init _ _ _

theorem windowMin_le (f : ℕ → ℕ) {lo hi k : ℕ} (h1 : lo ≤ k) (h2 : k ≤ hi) :
    windowMin f lo hi ≤ f k :=
  ((le_windowMin f lo hi _).mp le_rfl).2 k h1 h2

theorem windowMin_cases (f : ℕ → ℕ) (lo hi : ℕ) :
    windowMin f lo hi = 255 ∨
      ∃ k, lo ≤ k ∧ k ≤ hi ∧ windowMin f lo hi = f k := by
  unfold windowMin
  rcases foldl_min_cases (List.range (hi + 1 - lo)) (fun t => f (lo + t)) 255
    with h | ⟨t, ht, he⟩
  · exact Or.inl h
  · rw [List.mem_range] at ht
    exact Or.inr ⟨lo + t, by omega, by omega, he⟩

theorem windowMin_mono {f g : ℕ → ℕ} {lo' hi' lo hi : ℕ}
    (h1 : lo' ≤ lo) (h2 : hi ≤ hi')
    (hf : ∀ k, lo' ≤ k → k ≤ hi' → f k ≤ g k) :
    windowMin f lo' hi' ≤ windowMin g lo hi := by
  rcases windowMin_cases g lo hi with h | ⟨k, hlo, khi, he⟩
  · rw [h]; exact windowMin_le_255 _ _ _
  · rw [he]
    exact le_trans (windowMin_le f (by omega) (by omega))
      (hf k (by omega) (by omega))

end FoldMinLemmas

/-- One layer of the per-pixel loop body of processMagicEraser, for a layer
whose color c is present: conditional alpha update of the running alpha a
for pixel color (r, g, b). -/
noncomputable def applyLayerCode (r g b : ℕ) (a : ℤ) (c : RGBColor)
    (l : EraserLayer) : ℤ :=
  let tolerance : ℝ := (l.tolerance : ℝ) / 100
  let dist : ℝ := colorDistance r g b c.r c.g c.b
  let targetAlpha : ℤ := round ((255 : ℝ) * (1 - (l.transparency : ℝ) / 100))
  if dist ≤ tolerance then
    if targetAlpha < a then targetAlpha else a
  else if 0 < l.feather ∧ dist ≤ tolerance + (l.feather : ℝ) / 100 then
    let featherDist : ℝ := (dist - tolerance) / ((l.feather : ℝ) / 100)
    let layerResultAlpha : ℝ :=
      (targetAlpha : ℝ) + ((255 : ℝ) - (targetAlpha : ℝ)) * featherDist
    if layerResultAlpha < (a : ℝ) then ⌊layerResultAlpha⌋ else a
  else a

/-- The per-pixel layer loop of processMagicEraser: skips colorless layers
and stops early once the running alpha reaches 0. -/
noncomputable def runLayers (r g b : ℕ) : ℤ → List EraserLayer → ℤ
  | a, [] => a
  | a, l :: ls =>
    match l.color with
    | none => runLayers r g b a ls
    | some c =>
      if applyLayerCode r g b a c l = 0 then applyLayerCode r g b a c l
      else runLayers r g b (applyLayerCode r g b a c l) ls

/-- The layer-compositor pass of processMagicEraser on the flat buffer:
each full RGBA chunk's alpha cell is rewritten (already transparent pixels
are skipped); every other cell is untouched. -/
noncomputable def compositeData (img : ImageData)
    (layers : List EraserLayer) : ℕ → ℕ := fun j =>
  if j % 4 = 3 ∧ j < img.len then
    if img.data j = 0 then img.data j
    else
      clampByte (runLayers (img.data (j - 3)) (img.data (j - 2))
        (img.data (j - 1)) (img.data j) layers)
  else img.data j

/-- The activity filter of processMagicEraser: isActive and color set. -/
def isActiveLayer (l : EraserLayer) : Bool :=
  l.isActive && l.color.isSome

/-- Source processMagicEraser: early return when no layer is active and
choke is 0, otherwise the compositor pass (when some layer is active)
followed by applyChoke (when choke is positive). -/
noncomputable def processMagicEraser (img : ImageData)
    (params : ProcessingParams) : ImageData :=
  let activeLayers := params.layers.filter isActiveLayer
  if activeLayers = [] ∧ params.choke = 0 then img
  else
    let afterLayers :=
      if activeLayers = [] then img
      else { img with data := compositeData img activeLayers }
    if 0 < params.choke then applyChoke afterLayers params.choke
    else afterLayers

/-- The compositor stage of processMagicEraser as a standalone image
transform (identity when the active-layer list is empty). -/
noncomputable def eraserStage1 (img : ImageData)
    (activeLayers : List EraserLayer) : ImageData :=
  if activeLayers = [] then img
  else { img with data := compositeData img activeLayers }

/-- One loop iteration of the per-pixel layer loop, colorless layers
included (they leave the running alpha unchanged). -/
noncomputable def stepLayer (r g b : ℕ) (a : ℤ) (l : EraserLayer) : ℤ :=
  match l.color with
  | none => a
  | some c => applyLayerCode r g b a c l

/-- The layer loop without its early exit: a plain left fold of the
per-layer steps. -/
noncomputable def runLayersNB (r g b : ℕ) (a : ℤ)
    (ls : List EraserLayer) : ℤ :=
  ls.foldl (stepLayer r g b) a

/-- The per-layer contribution as the specification describes it: the
rounded target alpha inside tolerance, the floored feather interpolation
against the 255 baseline strictly between tolerance and
tolerance + feather/100 when feather is positive, and no contribution
otherwise. -/
noncomputable def specLayerContrib (r g b : ℕ) (l : EraserLayer) :
    Option ℤ :=
  match l.color with
  | none => none
  | some c =>
    let tol : ℝ := (l.tolerance : ℝ) / 100
    let dist : ℝ := colorDistance r g b c.r c.g c.b
    let targetAlpha : ℤ :=
      round ((255 : ℝ) * (1 - (l.transparency : ℝ) / 100))
    if dist ≤ tol then some targetAlpha
    else if 0 < l.feather ∧ tol < dist ∧ dist ≤ tol + (l.feather : ℝ) / 100
    then
      some ⌊(targetAlpha : ℝ) + ((255 : ℝ) - (targetAlpha : ℝ)) *
        ((dist - tol) / ((l.feather : ℝ) / 100))⌋
    else none

/-- The compositor on one pixel as the specification describes it: alpha 0
is kept without layer evaluation, otherwise after each layer the running
alpha is the minimum of the previous running alpha and that layer's
contribution. -/
noncomputable def specPixelAlpha (r g b : ℕ) (a : ℤ)
    (layers : List EraserLayer) : ℤ :=
  if a = 0 then a
  else
    layers.foldl (fun cur l =>
      match specLayerContrib r g b l with
      | none => cur
      | some v => min cur v) a

theorem stepLayer_eq_spec (r g b : ℕ) (a : ℤ) (l : EraserLayer) :
    stepLayer r g b a l =
      match specLayerContrib r g b l with
      | none => a
      | some v => min a v := by
  unfold stepLayer specLayerContrib
  cases hc : l.color with
  | none => rfl
  | some c =>
    simp only [applyLayerCode]
    by_cases h1 : colorDistance r g b c.r c.g c.b ≤ (l.tolerance : ℝ) / 100
    · simp only [if_pos h1]
      rcases lt_or_le (round ((255 : ℝ) * (1 - (l.transparency : ℝ) / 100)))
        a with h | h
      · rw [if_pos h, min_eq_right h.le]
      · rw [if_neg (not_lt.mpr h), min_eq_left h]
    · simp only [if_neg h1]
      by_cases h2 : 0 < l.feather ∧ colorDistance r g b c.r c.g c.b ≤
          (l.tolerance : ℝ) / 100 + (l.feather : ℝ) / 100
      · have h2' : 0 < l.feather ∧
            (l.tolerance : ℝ) / 100 < colorDistance r g b c.r c.g c.b ∧
            colorDistance r g b c.r c.g c.b ≤
              (l.tolerance : ℝ) / 100 + (l.feather : ℝ) / 100 :=
          ⟨h2.1, not_le.mp h1, h2.2⟩
      -- both feather guards hold; compare the conditional floor with min
        rw [if_pos h2, if_pos h2']
        by_cases hx : (↑(round ((255 : ℝ) * (1 - (l.transparency : ℝ) / 100)))
            + ((255 : ℝ) - ↑(round ((255 : ℝ) * (1 - (l.transparency : ℝ) / 100))))
            * ((colorDistance r g b c.r c.g c.b - (l.tolerance : ℝ) / 100)
              / ((l.feather : ℝ) / 100)) : ℝ) < (a : ℝ)
        · rw [if_pos hx]
          exact (min_eq_right (Int.floor_lt.mpr hx).le).symm
        · rw [if_neg hx]
          exact (min_eq_left (Int.le_floor.mpr (not_lt.mp hx))).symm
      · have h2' : ¬(0 < l.feather ∧
            (l.tolerance : ℝ) / 100 < colorDistance r g b c.r c.g c.b ∧
            colorDistance r g b c.r c.g c.b ≤
              (l.tolerance : ℝ) / 100 + (l.feather : ℝ) / 100) := by
          rintro ⟨hf, _, hd⟩
          exact h2 ⟨hf, hd⟩
        rw [if_neg h2, if_neg h2']

theorem stepLayer_le (r g b : ℕ) (a : ℤ) (l : EraserLayer) :
    stepLayer r g b a l ≤ a := by
  rw [stepLayer_eq_spec]
  cases specLayerContrib r g b l with
  | none => exact le_rfl
  | some v => exact min_le_left _ _

theorem applyLayerCode_le {l : EraserLayer} {c : RGBColor}
    (hc : l.color = some c) (r g b : ℕ) (a : ℤ) :
    applyLayerCode r g b a c l ≤ a := by
  have h := stepLayer_le r g b a l
  rwa [stepLayer, hc] at h

theorem runLayers_cons_none {l : EraserLayer} (hc : l.color = none)
    (r g b : ℕ) (a : ℤ) (ls : List EraserLayer) :
    runLayers r g b a (l :: ls) = runLayers r g b a ls := by
  rw [runLayers, hc]

theorem runLayers_cons_some {l : EraserLayer} {c : RGBColor}
    (hc : l.color = some c) (r g b : ℕ) (a : ℤ) (ls : List EraserLayer) :
    runLayers r g b a (l :: ls) =
      if applyLayerCode r g b a c l = 0 then applyLayerCode r g b a c l
      else runLayers r g b (applyLayerCode r g b a c l) ls := by
  rw [runLayers, hc]

theorem runLayers_le (r g b : ℕ) (a : ℤ) (ls : List EraserLayer) :
    runLayers r g b a ls ≤ a := by
  induction ls generalizing a with
  | nil => exact le_rfl
  | cons l ls ih =>
    cases hc : l.color with
    | none =>
      rw [runLayers_cons_none hc]
      exact ih a
    | some c =>
      rw [runLayers_cons_some hc]
      by_cases h : applyLayerCode r g b a c l = 0
      · rw [if_pos h]
        exact applyLayerCode_le hc r g b a
      · rw [if_neg h]
        exact le_trans (ih _) (applyLayerCode_le hc r g b a)

theorem runLayersNB_le (r g b : ℕ) (a : ℤ) (ls : List EraserLayer) :
    runLayersNB r g b a ls ≤ a := by
  induction ls generalizing a with
  | nil => exact le_rfl
  | cons l ls ih =>
    exact le_trans (ih (stepLayer r g b a l)) (stepLayer_le r g b a l)

theorem clampByte_le_255 (x : ℤ) : clampByte x ≤ 255 := by
  unfold clampByte; omega

theorem clampByte_mono {x y : ℤ} (h : x ≤ y) : clampByte x ≤ clampByte y := by
  unfold clampByte; omega

theorem clampByte_nonpos {x : ℤ} (h : x ≤ 0) : clampByte x = 0 := by
  unfold clampByte; omega

theorem clampByte_coe {x : ℤ} (h0 : 0 ≤ x) (h255 : x ≤ 255) :
    (clampByte x : ℤ) = x := by
  unfold clampByte; omega

theorem clampByte_le_of_le {x : ℤ} {a : ℕ} (h : x ≤ (a : ℤ)) :
    clampByte x ≤ a := by
  unfold clampByte; omega

theorem clampByte_runLayers_eq (r g b : ℕ) (a : ℤ) (ls : List EraserLayer) :
    clampByte (runLayers r g b a ls) = clampByte (runLayersNB r g b a ls) := by
  induction ls generalizing a with
  | nil => rfl
  | cons l ls ih =>
    rw [runLayersNB, List.foldl_cons]
    cases hc : l.color with
    | none =>
      have hs : stepLayer r g b a l = a := by rw [stepLayer, hc]
      rw [runLayers_cons_none hc, hs]
      exact ih a
    | some c =>
      have hs : stepLayer r g b a l = applyLayerCode r g b a c l := by
        rw [stepLayer, hc]
      rw [runLayers_cons_some hc]
      by_cases h : applyLayerCode r g b a c l = 0
      · rw [if_pos h, hs, h]
        have h2 : List.foldl (stepLayer r g b) 0 ls ≤ 0 :=
          runLayersNB_le r g b 0 ls
        rw [clampByte_nonpos le_rfl, clampByte_nonpos h2]
      · rw [if_neg h, hs]
        exact ih _

theorem stepLayer_comm (r g b : ℕ) (a : ℤ) (l1 l2 : EraserLayer) :
    stepLayer r g b (stepLayer r g b a l1) l2 =
      stepLayer r g b (stepLayer r g b a l2) l1 := by
  rcases h1 : specLayerContrib r g b l1 with _ | v1 <;>
    rcases h2 : specLayerContrib r g b l2 with _ | v2 <;>
      simp only [stepLayer_eq_spec, h1, h2]
  exact min_right_comm a v1 v2

theorem runLayersNB_perm (r g b : ℕ) {l1 l2 : List EraserLayer}
    (hp : l1.Perm l2) (a : ℤ) :
    runLayersNB r g b a l1 = runLayersNB r g b a l2 := by
  induction hp generalizing a with
  | nil => rfl
  | cons x _ ih =>
    rw [runLayersNB, runLayersNB, List.foldl_cons, List.foldl_cons]
    exact ih _
  | swap x y l =>
    rw [runLayersNB, runLayersNB, List.foldl_cons, List.foldl_cons,
      List.foldl_cons, List.foldl_cons, stepLayer_comm]
  | trans _ _ ih1 ih2 => exact (ih1 a).trans (ih2 a)

theorem applyChoke_of_nonpos (img : ImageData) {radius : ℚ}
    (h : radius ≤ 0) : applyChoke img radius = img := by
  rw [applyChoke, if_pos h]

/-- processMagicEraser is the compositor stage followed by applyChoke:
the early return and the two stage guards of the source collapse to this
normal form because applyChoke is itself the identity at radius 0. -/
theorem processMagicEraser_eq (img : ImageData) (p : ProcessingParams) :
    processMagicEraser img p =
      applyChoke (eraserStage1 img (p.layers.filter isActiveLayer))
        p.choke := by
  simp only [processMagicEraser, eraserStage1]
  by_cases h1 : p.layers.filter isActiveLayer = [] ∧ p.choke = 0
  · rw [if_pos h1, if_pos h1.1, h1.2, applyChoke_of_nonpos _ le_rfl]
  · rw [if_neg h1]
    by_cases h2 : 0 < p.choke
    · rw [if_pos h2]
    · rw [if_neg h2, applyChoke_of_nonpos _ (not_lt.mp h2)]

theorem applyChoke_width (img : ImageData) (radius : ℚ) :
    (applyChoke img radius).width = img.width := by
  unfold applyChoke; split <;> rfl

theorem applyChoke_height (img : ImageData) (radius : ℚ) :
    (applyChoke img radius).height = img.height := by
  unfold applyChoke; split <;> rfl

theorem applyChoke_len (img : ImageData) (radius : ℚ) :
    (applyChoke img radius).len = img.len := by
  unfold applyChoke; split <;> rfl

theorem eraserStage1_width (img : ImageData) (ls : List EraserLayer) :
    (eraserStage1 img ls).width = img.width := by
  unfold eraserStage1; split <;> rfl

theorem eraserStage1_height (img : ImageData) (ls : List EraserLayer) :
    (eraserStage1 img ls).height = img.height := by
  unfold eraserStage1; split <;> rfl

theorem eraserStage1_len (img : ImageData) (ls : List EraserLayer) :
    (eraserStage1 img ls).len = img.len := by
  unfold eraserStage1; split <;> rfl

theorem compositeData_le (img : ImageData) (ls : List EraserLayer)
    (j : ℕ) : compositeData img ls j ≤ img.data j := by
  unfold compositeData
  split
  · split
    · exact le_rfl
    · exact clampByte_le_of_le (runLayers_le _ _ _ _ _)
  · exact le_rfl

theorem compositeData_other (img : ImageData) (ls : List EraserLayer)
    {j : ℕ} (h : ¬(j % 4 = 3 ∧ j < img.len)) :
    compositeData img ls j = img.data j := by
  unfold compositeData
  rw [if_neg h]

theorem eraserStage1_data_le (img : ImageData) (ls : List EraserLayer)
    (j : ℕ) : (eraserStage1 img ls).data j ≤ img.data j := by
  unfold eraserStage1
  split
  · exact le_rfl
  · exact compositeData_le img ls j

theorem applyChoke_data_le (img : ImageData) (radius : ℚ) (j : ℕ) :
    (applyChoke img radius).data j ≤ img.data j := by
  unfold applyChoke
  split
  · exact le_rfl
  · dsimp only
    split
    · split
      · omega
      · exact le_rfl
    · exact le_rfl

theorem chokeVert_le_of {w h len : ℕ} {d1 d2 : ℕ → ℕ}
    (hd : ∀ j, d1 j ≤ d2 j) {r1 r2 : ℕ} (hr : r2 ≤ r1) (x y : ℕ) :
    chokeVert ⟨w, h, len, d1⟩ r1 x y ≤ chokeVert ⟨w, h, len, d2⟩ r2 x y := by
  unfold chokeVert
  apply windowMin_mono (by omega) (by simp only; omega)
  intro k _ _
  unfold chokeTemp
  apply windowMin_mono (by omega) (by simp only; omega)
  intro k2 _ _
  unfold chokeAlphaOrig
  dsimp only
  split
  · exact hd _
  · exact le_rfl

/-- applyChoke is pointwise antitone jointly in the buffer contents and in
the radius, at fixed dimensions. -/
theorem applyChoke_data_le_of {w h len : ℕ} {d1 d2 : ℕ → ℕ} {ρ1 ρ2 : ℚ}
    (hd : ∀ j, d1 j ≤ d2 j) (hρ : ρ2 ≤ ρ1) (j : ℕ) :
    (applyChoke ⟨w, h, len, d1⟩ ρ1).data j ≤
      (applyChoke ⟨w, h, len, d2⟩ ρ2).data j := by
  by_cases h2 : ρ2 ≤ 0
  · rw [applyChoke_of_nonpos _ h2]
    exact le_trans (applyChoke_data_le _ _ _) (hd j)
  · have h1 : ¬ρ1 ≤ 0 := fun hle => h2 (le_trans hρ hle)
    have hr : Int.toNat ⌈ρ2⌉ ≤ Int.toNat ⌈ρ1⌉ :=
      Int.toNat_le_toNat (Int.ceil_le_ceil hρ)
    rw [applyChoke, if_neg h1, applyChoke, if_neg h2]
    dsimp only
    by_cases hcnd : j % 4 = 3 ∧ j / 4 < w * h ∧ j < len
    · rw [if_pos hcnd, if_pos hcnd]
      have hm : chokeVert ⟨w, h, len, d1⟩ (Int.toNat ⌈ρ1⌉) (j / 4 % w)
          (j / 4 / w) ≤ chokeVert ⟨w, h, len, d2⟩ (Int.toNat ⌈ρ2⌉)
          (j / 4 % w) (j / 4 / w) :=
        chokeVert_le_of hd hr _ _
      have hdj : d1 j ≤ d2 j := hd j
      split_ifs <;> omega
    · rw [if_neg hcnd, if_neg hcnd]
      exact hd j

theorem colorDistance_self (r g b : ℤ) : colorDistance r g b r g b = 0 := by
  unfold colorDistance
  simp

/-- Concrete inputs shared by the witnesses below. -/
def sampleLayer : EraserLayer :=
  { id := "a", color := some ⟨0, 0, 0⟩, tolerance := 50, feather := 10,
    transparency := 100, isActive := true }

def sampleLayer2 : EraserLayer :=
  { id := "b", color := some ⟨10, 20, 30⟩, tolerance := 30, feather := 0,
    transparency := 40, isActive := true }

def sampleImg : ImageData := ⟨1, 1, 4, fun _ => 200⟩

theorem chokeAlphaOrig_eq (img : ImageData)
    (hlen : img.len = 4 * (img.width * img.height)) {i : ℕ}
    (hi : i < img.width * img.height) :
    chokeAlphaOrig img i = img.data (4 * i + 3) := by
  unfold chokeAlphaOrig
  rw [if_pos (by rw [hlen]; omega)]

theorem pixel_index_lt {w h x y : ℕ} (hx : x < w) (hy : y < h) :
    y * w + x < w * h := by
  have h1 : y * w + x < (y + 1) * w := by
    rw [Nat.succ_mul]; omega
  have h2 : (y + 1) * w ≤ h * w := Nat.mul_le_mul_right _ hy
  calc y * w + x < (y + 1) * w := h1
    _ ≤ h * w := h2
    _ = w * h := Nat.mul_comm _ _

/-- The value applyChoke writes at the alpha cell of an in-range pixel:
the minimum of the pre-choke alpha and the vertical-pass minimum. -/
theorem applyChoke_data_at (img : ImageData) {radius : ℚ} (hρ : 0 < radius)
    {x y : ℕ} (hx : x < img.width) (hy : y < img.height)
    (hlen : img.len = 4 * (img.width * img.height)) :
    (applyChoke img radius).data (4 * (y * img.width + x) + 3) =
      min (img.data (4 * (y * img.width + x) + 3))
        (chokeVert img (Int.toNat ⌈radius⌉) x y) := by
  have hw : 0 < img.width := lt_of_le_of_lt (Nat.zero_le _) hx
  have hp : y * img.width + x < img.width * img.height := pixel_index_lt hx hy
  have hmod : (4 * (y * img.width + x) + 3) % 4 = 3 := by omega
  have hdiv : (4 * (y * img.width + x) + 3) / 4 = y * img.width + x := by
    omega
  have hjlen : 4 * (y * img.width + x) + 3 < img.len := by rw [hlen]; omega
  have hxm : (y * img.width + x) % img.width = x := by
    rw [Nat.add_comm (y * img.width) x, Nat.add_mul_mod_self_right,
      Nat.mod_eq_of_lt hx]
  have hym : (y * img.width + x) / img.width = y := by
    rw [Nat.add_comm (y * img.width) x, Nat.add_mul_div_right x y hw,
      Nat.div_eq_of_lt hx]
    omega
  rw [applyChoke, if_neg (not_le.mpr hρ)]
  dsimp only
  rw [if_pos ⟨hmod, by rw [hdiv]; exact hp, hjlen⟩, hdiv, hxm, hym]
  rcases lt_or_le (chokeVert img (Int.toNat ⌈radius⌉) x y)
    (img.data (4 * (y * img.width + x) + 3)) with hlt | hle
  · rw [if_pos hlt, min_eq_right hlt.le]
  · rw [if_neg (not_lt.mpr hle), min_eq_left hle]

/-- C3: for every in-range pixel, the two sequential passes of applyChoke
compute exactly the minimum of the pre-choke alpha over the square window
[x-r, x+r] times [y-r, y+r] clamped to the grid, with r = ceil(radius):
the separable implementation is a direct erosion with the square
structuring element of side 2r+1 (the result is a lower bound of the
window and is attained inside the window). -/
theorem applyChoke_eq_box_min (img : ImageData) (radius : ℚ)
    (hρ : 0 < radius) (hlen : img.len = 4 * (img.width * img.height))
    (hb : ∀ j, img.data j ≤ 255) {x y : ℕ} (hx : x < img.width)
    (hy : y < img.height) :
    (∀ kx ky, x - Int.toNat ⌈radius⌉ ≤ kx →
        kx ≤ min (img.width - 1) (x + Int.toNat ⌈radius⌉) →
        y - Int.toNat ⌈radius⌉ ≤ ky →
        ky ≤ min (img.height - 1) (y + Int.toNat ⌈radius⌉) →
        (applyChoke img radius).data (4 * (y * img.width + x) + 3) ≤
          img.data (4 * (ky * img.width + kx) + 3)) ∧
      ∃ kx ky, (x - Int.toNat ⌈radius⌉ ≤ kx ∧
          kx ≤ min (img.width - 1) (x + Int.toNat ⌈radius⌉)) ∧
        (y - Int.toNat ⌈radius⌉ ≤ ky ∧
          ky ≤ min (img.height - 1) (y + Int.toNat ⌈radius⌉)) ∧
        img.data (4 * (ky * img.width + kx) + 3) =
          (applyChoke img radius).data (4 * (y * img.width + x) + 3) := by
  have hw : 0 < img.width := lt_of_le_of_lt (Nat.zero_le _) hx
  have hh : 0 < img.height := lt_of_le_of_lt (Nat.zero_le _) hy
  rw [applyChoke_data_at img hρ hx hy hlen]
  have hxin : x - Int.toNat ⌈radius⌉ ≤ x ∧
      x ≤ min (img.width - 1) (x + Int.toNat ⌈radius⌉) :=
    ⟨Nat.sub_le _ _, le_min (by omega) (Nat.le_add_right _ _)⟩
  have hyin : y - Int.toNat ⌈radius⌉ ≤ y ∧
      y ≤ min (img.height - 1) (y + Int.toNat ⌈radius⌉) :=
    ⟨Nat.sub_le _ _, le_min (by omega) (Nat.le_add_right _ _)⟩
  constructor
  · intro kx ky h1 h2 h3 h4
    have hkx : kx < img.width := by omega
    have hky : ky < img.height := by omega
    calc min (img.data (4 * (y * img.width + x) + 3))
          (chokeVert img (Int.toNat ⌈radius⌉) x y) ≤
        chokeVert img (Int.toNat ⌈radius⌉) x y := min_le_right _ _
      _ ≤ chokeTemp img (Int.toNat ⌈radius⌉) x ky := by
          unfold chokeVert
          exact windowMin_le _ h3 h4
      _ ≤ chokeAlphaOrig img (ky * img.width + kx) := by
          unfold chokeTemp
          exact windowMin_le _ h1 h2
      _ = img.data (4 * (ky * img.width + kx) + 3) :=
          chokeAlphaOrig_eq img hlen (pixel_index_lt hkx hky)
  · have hveq : chokeVert img (Int.toNat ⌈radius⌉) x y =
        windowMin (fun k => chokeTemp img (Int.toNat ⌈radius⌉) x k)
          (y - Int.toNat ⌈radius⌉)
          (min (img.height - 1) (y + Int.toNat ⌈radius⌉)) := rfl
    rcases windowMin_cases
        (fun k => chokeTemp img (Int.toNat ⌈radius⌉) x k)
        (y - Int.toNat ⌈radius⌉)
        (min (img.height - 1) (y + Int.toNat ⌈radius⌉)) with hv |
        ⟨ky, hky1, hky2, hv⟩
    · refine ⟨x, y, hxin, hyin, ?_⟩
      rw [hveq, hv, min_eq_left (hb _)]
    · rcases windowMin_cases
          (fun k => chokeAlphaOrig img (ky * img.width + k))
          (x - Int.toNat ⌈radius⌉)
          (min (img.width - 1) (x + Int.toNat ⌈radius⌉)) with ht |
          ⟨kx, hkx1, hkx2, ht⟩
      · refine ⟨x, y, hxin, hyin, ?_⟩
        have hteq : chokeTemp img (Int.toNat ⌈radius⌉) x ky = 255 := ht
        rw [hveq, hv, hteq, min_eq_left (hb _)]
      · have hkx : kx < img.width := by omega
        have hky : ky < img.height := by omega
        have hval : chokeVert img (Int.toNat ⌈radius⌉) x y =
            img.data (4 * (ky * img.width + kx) + 3) := by
          rw [hveq, hv,
            show chokeTemp img (Int.toNat ⌈radius⌉) x ky =
              chokeAlphaOrig img (ky * img.width + kx) from ht]
          exact chokeAlphaOrig_eq img hlen (pixel_index_lt hkx hky)
        rcases min_cases (img.data (4 * (y * img.width + x) + 3))
            (chokeVert img (Int.toNat ⌈radius⌉) x y) with ⟨hm, _⟩ | ⟨hm, _⟩
        · exact ⟨x, y, hxin, hyin, hm.symm⟩
        · refine ⟨kx, ky, ⟨hkx1, hkx2⟩, ⟨hky1, hky2⟩, ?_⟩
          rw [hm, hval]

/-- Witness for C3 at a concrete image and radius. -/
theorem applyChoke_eq_box_min_witness :
    (0 : ℚ) < 1 ∧ sampleImg.len = 4 * (sampleImg.width * sampleImg.height) ∧
      (∀ j, sampleImg.data j ≤ 255) ∧ 0 < sampleImg.width ∧
      0 < sampleImg.height ∧
      ((∀ kx ky, 0 - Int.toNat ⌈(1 : ℚ)⌉ ≤ kx →
          kx ≤ min (sampleImg.width - 1) (0 + Int.toNat ⌈(1 : ℚ)⌉) →
          0 - Int.toNat ⌈(1 : ℚ)⌉ ≤ ky →
          ky ≤ min (sampleImg.height - 1) (0 + Int.toNat ⌈(1 : ℚ)⌉) →
          (applyChoke sampleImg 1).data
              (4 * (0 * sampleImg.width + 0) + 3) ≤
            sampleImg.data (4 * (ky * sampleImg.width + kx) + 3)) ∧
        ∃ kx ky, (0 - Int.toNat ⌈(1 : ℚ)⌉ ≤ kx ∧
            kx ≤ min (sampleImg.width - 1) (0 + Int.toNat ⌈(1 : ℚ)⌉)) ∧
          (0 - Int.toNat ⌈(1 : ℚ)⌉ ≤ ky ∧
            ky ≤ min (sampleImg.height - 1) (0 + Int.toNat ⌈(1 : ℚ)⌉)) ∧
          sampleImg.data (4 * (ky * sampleImg.width + kx) + 3) =
            (applyChoke sampleImg 1).data
              (4 * (0 * sampleImg.width + 0) + 3)) :=
  ⟨by norm_num, by decide, fun _ => (by decide : (200 : ℕ) ≤ 255),
    by decide, by decide,
    applyChoke_eq_box_min sampleImg 1 (by norm_num) (by decide)
      (fun _ => (by decide : (200 : ℕ) ≤ 255)) (by decide) (by decide)⟩

/-- C1: the claim says colorDistance always lies in the closed interval
[0,1]; in the code the Euclidean distance is divided by the literal 441.67,
which is smaller than the true maximum sqrt(3 times 255 squared), so the
distance of black and white exceeds 1.  This theorem evaluates the code at
that failing input. -/
theorem colorDistance_exceeds_one_at_extremes :
    1 < colorDistance 0 0 0 255 255 255 := by
  unfold colorDistance
  have h : ((0 - 255) * (0 - 255) + (0 - 255) * (0 - 255)
      + (0 - 255) * (0 - 255) : ℤ) = 195075 := by norm_num
  rw [h]
  rw [one_lt_div (by norm_num : (0 : ℝ) < 441.67)]
  have : ((195075 : ℤ) : ℝ) = 195075 := by norm_num
  rw [this]
  rw [Real.lt_sqrt (by norm_num : (0 : ℝ) ≤ 441.67)]
  norm_num

/-- C5: the choke filter only decreases stored values: after applyChoke
every cell of the buffer, in particular every pixel's alpha, is at most
its value before the pass, for every radius. -/
theorem applyChoke_never_increases (img : ImageData) (radius : ℚ)
    (j : ℕ) : (applyChoke img radius).data j ≤ img.data j :=
  applyChoke_data_le img radius j

/-- C6: processMagicEraser with an empty layer list and choke 0 is the
identity transform (the source's early return). -/
theorem processMagicEraser_identity (img : ImageData) :
    processMagicEraser img ⟨[], 0⟩ = img := by
  simp [processMagicEraser]

/-- C9: processMagicEraser modifies only alpha cells of the buffer: every
flat index that is not congruent to 3 mod 4 (the R, G and B channels)
keeps its input value, for every image and parameters. -/
theorem processMagicEraser_preserves_rgb (img : ImageData)
    (p : ProcessingParams) {j : ℕ} (h : j % 4 ≠ 3) :
    (processMagicEraser img p).data j = img.data j := by
  rw [processMagicEraser_eq]
  have hstage : (eraserStage1 img (p.layers.filter isActiveLayer)).data j
      = img.data j := by
    unfold eraserStage1
    split
    · rfl
    · exact compositeData_other _ _ (fun hc => h hc.1)
  unfold applyChoke
  split
  · exact hstage
  · dsimp only
    rw [if_neg (fun hc => h hc.1)]
    exact hstage

/-- Witness for C9 at a concrete image, parameter record and index. -/
theorem processMagicEraser_preserves_rgb_witness :
    (0 % 4 ≠ 3) ∧
      (processMagicEraser ⟨0, 0, 0, fun _ => 0⟩ ⟨[], 1⟩).data 0 =
        (⟨0, 0, 0, fun _ => 0⟩ : ImageData).data 0 :=
  ⟨by decide, processMagicEraser_preserves_rgb _ _ (by decide)⟩

theorem compositeData_perm (img : ImageData) {A1 A2 : List EraserLayer}
    (hp : A1.Perm A2) : compositeData img A1 = compositeData img A2 := by
  funext j
  unfold compositeData
  split
  · split
    · rfl
    · rw [clampByte_runLayers_eq, clampByte_runLayers_eq,
        runLayersNB_perm _ _ _ hp]
  · rfl

/-- C4: permuting the layer list (same choke) yields an identical output
image, in particular an identical final alpha for every pixel. -/
theorem processMagicEraser_perm_invariant (img : ImageData)
    (p1 p2 : ProcessingParams) (hL : p1.layers.Perm p2.layers)
    (hc : p1.choke = p2.choke) :
    processMagicEraser img p1 = processMagicEraser img p2 := by
  rw [processMagicEraser_eq, processMagicEraser_eq, hc]
  have hA : (p1.layers.filter isActiveLayer).Perm
      (p2.layers.filter isActiveLayer) := hL.filter _
  have hstage : eraserStage1 img (p1.layers.filter isActiveLayer) =
      eraserStage1 img (p2.layers.filter isActiveLayer) := by
    unfold eraserStage1
    by_cases h1 : p1.layers.filter isActiveLayer = []
    · have h2 : p2.layers.filter isActiveLayer = [] := by
        have hl2 := hA.length_eq
        rw [h1] at hl2
        exact List.length_eq_zero.mp hl2.symm
      rw [if_pos h1, if_pos h2]
    · have h2 : ¬p2.layers.filter isActiveLayer = [] := by
        intro h2
        apply h1
        have hl2 := hA.length_eq
        rw [h2] at hl2
        exact List.length_eq_zero.mp hl2
      rw [if_neg h1, if_neg h2, compositeData_perm img hA]
  rw [hstage]

/-- Witness for C4 at two concrete two-layer lists that are permutations
of each other. -/
theorem processMagicEraser_perm_invariant_witness :
    ([sampleLayer, sampleLayer2].Perm [sampleLayer2, sampleLayer]) ∧
      processMagicEraser sampleImg ⟨[sampleLayer, sampleLayer2], 2⟩ =
        processMagicEraser sampleImg ⟨[sampleLayer2, sampleLayer], 2⟩ :=
  ⟨List.Perm.swap sampleLayer2 sampleLayer [],
    processMagicEraser_perm_invariant sampleImg _ _
      (List.Perm.swap sampleLayer2 sampleLayer []) rfl⟩

theorem applyChoke_data_le_of2 (img1 img2 : ImageData)
    (hw : img1.width = img2.width) (hh : img1.height = img2.height)
    (hl : img1.len = img2.len) (hd : ∀ j, img1.data j ≤ img2.data j)
    {ρ1 ρ2 : ℚ} (hρ : ρ2 ≤ ρ1) (j : ℕ) :
    (applyChoke img1 ρ1).data j ≤ (applyChoke img2 ρ2).data j := by
  obtain ⟨w1, h1, l1, d1⟩ := img1
  obtain ⟨w2, h2, l2, d2⟩ := img2
  cases hw
  cases hh
  cases hl
  exact applyChoke_data_le_of hd hρ j

theorem runLayers_append_le (r g b : ℕ) (a : ℤ) (ls : List EraserLayer)
    (l : EraserLayer) :
    runLayers r g b a (ls ++ [l]) ≤ runLayers r g b a ls := by
  induction ls generalizing a with
  | nil => exact runLayers_le r g b a [l]
  | cons l0 ls ih =>
    cases hc : l0.color with
    | none =>
      rw [List.cons_append, runLayers_cons_none hc, runLayers_cons_none hc]
      exact ih a
    | some c =>
      rw [List.cons_append, runLayers_cons_some hc, runLayers_cons_some hc]
      by_cases h : applyLayerCode r g b a c l0 = 0
      · rw [if_pos h, if_pos h]
      · rw [if_neg h, if_neg h]
        exact ih _

theorem compositeData_append_le (img : ImageData) (ls : List EraserLayer)
    (l : EraserLayer) (j : ℕ) :
    compositeData img (ls ++ [l]) j ≤ compositeData img ls j := by
  unfold compositeData
  split
  · split
    · exact le_rfl
    · exact clampByte_mono (runLayers_append_le _ _ _ _ _ _)
  · exact le_rfl

/-- C7: appending one additional active layer never increases any pixel's
final alpha (every cell of the output buffer is at most its value without
that layer), for every image, layer list and choke. -/
theorem processMagicEraser_append_layer_le (img : ImageData)
    (L : List EraserLayer) (c : ℚ) (l : EraserLayer)
    (hact : isActiveLayer l = true) (j : ℕ) :
    (processMagicEraser img ⟨L ++ [l], c⟩).data j ≤
      (processMagicEraser img ⟨L, c⟩).data j := by
  rw [processMagicEraser_eq, processMagicEraser_eq]
  have hfilter : (L ++ [l]).filter isActiveLayer =
      L.filter isActiveLayer ++ [l] := by
    rw [List.filter_append]
    simp [hact]
  show (applyChoke (eraserStage1 img ((L ++ [l]).filter isActiveLayer))
      c).data j ≤ _
  rw [hfilter]
  apply applyChoke_data_le_of2 _ _
    ((eraserStage1_width _ _).trans (eraserStage1_width _ _).symm)
    ((eraserStage1_height _ _).trans (eraserStage1_height _ _).symm)
    ((eraserStage1_len _ _).trans (eraserStage1_len _ _).symm)
    ?_ le_rfl j
  intro j2
  unfold eraserStage1
  by_cases hA : L.filter isActiveLayer = []
  · rw [hA, if_neg (by simp), if_pos rfl]
    exact compositeData_le img ([] ++ [l]) j2
  · rw [if_neg (by simp [hA]), if_neg hA]
    exact compositeData_append_le img _ l j2

/-- Witness for C7 at a concrete image and appended active layer. -/
theorem processMagicEraser_append_layer_le_witness :
    isActiveLayer sampleLayer = true ∧
      (processMagicEraser sampleImg ⟨[] ++ [sampleLayer], 0⟩).data 3 ≤
        (processMagicEraser sampleImg ⟨[], 0⟩).data 3 :=
  ⟨by decide,
    processMagicEraser_append_layer_le sampleImg [] 0 sampleLayer
      (by decide) 3⟩

/-- C8: processing with a larger choke radius never yields a larger value
at any cell than processing the same input with a smaller radius. -/
theorem processMagicEraser_choke_antitone (img : ImageData)
    (L : List EraserLayer) {r1 r2 : ℚ} (h : r1 ≤ r2) (j : ℕ) :
    (processMagicEraser img ⟨L, r2⟩).data j ≤
      (processMagicEraser img ⟨L, r1⟩).data j := by
  rw [processMagicEraser_eq, processMagicEraser_eq]
  exact applyChoke_data_le_of2 _ _ rfl rfl rfl (fun _ => le_rfl) h j

/-- Witness for C8 at a concrete image and radii 0 and 1. -/
theorem processMagicEraser_choke_antitone_witness :
    (0 : ℚ) ≤ 1 ∧
      (processMagicEraser sampleImg ⟨[sampleLayer2], 1⟩).data 3 ≤
        (processMagicEraser sampleImg ⟨[sampleLayer2], 0⟩).data 3 :=
  ⟨by norm_num,
    processMagicEraser_choke_antitone sampleImg [sampleLayer2]
      (by norm_num) 3⟩

theorem specLayerContrib_range (r g b : ℕ) {l : EraserLayer}
    (ht0 : 0 ≤ l.transparency) (ht1 : l.transparency ≤ 100) {v : ℤ}
    (hv : specLayerContrib r g b l = some v) : 0 ≤ v ∧ v ≤ 255 := by
  have hc0 : (0 : ℝ) ≤ (l.transparency : ℝ) := by exact_mod_cast ht0
  have hc1 : (l.transparency : ℝ) ≤ 100 := by exact_mod_cast ht1
  have htar0 : (0 : ℤ) ≤
      round ((255 : ℝ) * (1 - (l.transparency : ℝ) / 100)) := by
    rw [round_eq]
    refine Int.floor_nonneg.mpr ?_
    nlinarith
  have htar1 : round ((255 : ℝ) * (1 - (l.transparency : ℝ) / 100)) ≤ 255 := by
    rw [round_eq]
    have hlt : ⌊(255 : ℝ) * (1 - (l.transparency : ℝ) / 100) + 1 / 2⌋ <
        256 := Int.floor_lt.mpr (by push_cast; nlinarith)
    omega
  cases hcol : l.color with
  | none =>
    simp only [specLayerContrib, hcol] at hv
    exact Option.noConfusion hv
  | some c =>
    simp only [specLayerContrib, hcol] at hv
    have htr0 : (0 : ℝ) ≤
        ((round ((255 : ℝ) * (1 - (l.transparency : ℝ) / 100)) : ℤ) : ℝ) := by
      exact_mod_cast htar0
    have htr1 :
        ((round ((255 : ℝ) * (1 - (l.transparency : ℝ) / 100)) : ℤ) : ℝ) ≤
          255 := by
      exact_mod_cast htar1
    split_ifs at hv with h1 h2
    · obtain rfl := (Option.some.inj hv).symm
      exact ⟨htar0, htar1⟩
    · obtain rfl := (Option.some.inj hv).symm
      obtain ⟨hf, hd1, hd2⟩ := h2
      have hfpos : (0 : ℝ) < (l.feather : ℝ) := by exact_mod_cast hf
      have hfe : (0 : ℝ) < (l.feather : ℝ) / 100 := by linarith
      have hfd0 : 0 ≤ (colorDistance (↑r) (↑g) (↑b) c.r c.g c.b -
          (l.tolerance : ℝ) / 100) / ((l.feather : ℝ) / 100) :=
        div_nonneg (by linarith) hfe.le
      have hfd1 : (colorDistance (↑r) (↑g) (↑b) c.r c.g c.b -
          (l.tolerance : ℝ) / 100) / ((l.feather : ℝ) / 100) ≤ 1 :=
        (div_le_one hfe).mpr (by linarith)
      constructor
      · refine Int.floor_nonneg.mpr ?_
        have hmul := mul_nonneg (by linarith :
          (0 : ℝ) ≤ 255 -
            ((round ((255 : ℝ) * (1 - (l.transparency : ℝ) / 100)) : ℤ) : ℝ))
          hfd0
        linarith
      · refine le_trans (Int.floor_le_floor ?_)
          (by norm_num : ⌊(255 : ℝ)⌋ ≤ 255)
        have hmul := mul_le_mul_of_nonneg_left hfd1 (by linarith :
          (0 : ℝ) ≤ 255 -
            ((round ((255 : ℝ) * (1 - (l.transparency : ℝ) / 100)) : ℤ) : ℝ))
        linarith

theorem stepLayer_range (r g b : ℕ) {a : ℤ} (ha0 : 0 ≤ a) (ha255 : a ≤ 255)
    {l : EraserLayer} (ht0 : 0 ≤ l.transparency)
    (ht1 : l.transparency ≤ 100) :
    0 ≤ stepLayer r g b a l ∧ stepLayer r g b a l ≤ 255 := by
  rw [stepLayer_eq_spec]
  cases hv : specLayerContrib r g b l with
  | none => exact ⟨ha0, ha255⟩
  | some v =>
    obtain ⟨hv0, _⟩ := specLayerContrib_range r g b ht0 ht1 hv
    exact ⟨le_min ha0 hv0, le_trans (min_le_left _ _) ha255⟩

theorem runLayersNB_range (r g b : ℕ) {a : ℤ} (ha0 : 0 ≤ a)
    (ha255 : a ≤ 255) {ls : List EraserLayer}
    (ht : ∀ l ∈ ls, 0 ≤ l.transparency ∧ l.transparency ≤ 100) :
    0 ≤ runLayersNB r g b a ls ∧ runLayersNB r g b a ls ≤ 255 := by
  induction ls generalizing a with
  | nil => exact ⟨ha0, ha255⟩
  | cons l ls ih =>
    obtain ⟨h1, h2⟩ := stepLayer_range r g b ha0 ha255
      (ht l (List.mem_cons_self _ _)).1 (ht l (List.mem_cons_self _ _)).2
    rw [show runLayersNB r g b a (l :: ls) =
      runLayersNB r g b (stepLayer r g b a l) ls from rfl]
    exact ih h1 h2 (fun l2 hl2 => ht l2 (List.mem_cons_of_mem _ hl2))

theorem runLayersNB_zero (r g b : ℕ) {ls : List EraserLayer}
    (hge : ∀ l ∈ ls, ∀ v, specLayerContrib r g b l = some v → 0 ≤ v) :
    runLayersNB r g b 0 ls = 0 := by
  induction ls with
  | nil => rfl
  | cons l ls ih =>
    have hs : stepLayer r g b 0 l = 0 := by
      rw [stepLayer_eq_spec]
      cases hv : specLayerContrib r g b l with
      | none => rfl
      | some v => exact min_eq_left (hge l (List.mem_cons_self _ _) v hv)
    rw [show runLayersNB r g b 0 (l :: ls) =
      runLayersNB r g b (stepLayer r g b 0 l) ls from rfl, hs]
    exact ih (fun l2 hl2 v hv => hge l2 (List.mem_cons_of_mem _ hl2) v hv)

theorem runLayers_eq_runLayersNB (r g b : ℕ) (a : ℤ) {ls : List EraserLayer}
    (hge : ∀ l ∈ ls, ∀ v, specLayerContrib r g b l = some v → 0 ≤ v) :
    runLayers r g b a ls = runLayersNB r g b a ls := by
  induction ls generalizing a with
  | nil => rfl
  | cons l ls ih =>
    have hnarrow : ∀ l2 ∈ ls, ∀ v,
        specLayerContrib r g b l2 = some v → 0 ≤ v :=
      fun l2 hl2 v hv => hge l2 (List.mem_cons_of_mem _ hl2) v hv
    have hcons : runLayersNB r g b a (l :: ls) =
        runLayersNB r g b (stepLayer r g b a l) ls := rfl
    cases hc : l.color with
    | none =>
      have hs : stepLayer r g b a l = a := by rw [stepLayer, hc]
      rw [runLayers_cons_none hc, hcons, hs]
      exact ih a hnarrow
    | some c =>
      have hs : stepLayer r g b a l = applyLayerCode r g b a c l := by
        rw [stepLayer, hc]
      rw [runLayers_cons_some hc, hcons, hs]
      by_cases h : applyLayerCode r g b a c l = 0
      · rw [if_pos h, h]
        exact (runLayersNB_zero r g b hnarrow).symm
      · rw [if_neg h]
        exact ih _ hnarrow

theorem runLayersNB_eq_specFold (r g b : ℕ) (a : ℤ)
    (ls : List EraserLayer) :
    runLayersNB r g b a ls =
      ls.foldl (fun cur l =>
        match specLayerContrib r g b l with
        | none => cur
        | some v => min cur v) a := by
  induction ls generalizing a with
  | nil => rfl
  | cons l ls ih =>
    rw [show runLayersNB r g b a (l :: ls) =
      runLayersNB r g b (stepLayer r g b a l) ls from rfl,
      List.foldl_cons, ih, stepLayer_eq_spec]

/-- C2: the per-pixel compositor refines the specification: at every alpha
cell of a full chunk, for active layers within the documented transparency
range and a byte-valued input alpha, the written alpha equals the
specification value (0 kept without evaluation, otherwise the running
minimum of the per-layer contributions) and is an integer in [0,255]. -/
theorem compositor_refines_spec (img : ImageData)
    (layers : List EraserLayer) {j : ℕ} (hj : j % 4 = 3)
    (hjlen : j < img.len)
    (_hact : ∀ l ∈ layers, l.isActive = true ∧ l.color.isSome = true)
    (ht : ∀ l ∈ layers, 0 ≤ l.transparency ∧ l.transparency ≤ 100)
    (hbyte : img.data j ≤ 255) :
    (compositeData img layers j : ℤ) =
      specPixelAlpha (img.data (j - 3)) (img.data (j - 2))
        (img.data (j - 1)) (img.data j) layers ∧
      compositeData img layers j ≤ 255 := by
  unfold compositeData specPixelAlpha
  rw [if_pos ⟨hj, hjlen⟩]
  by_cases h0 : img.data j = 0
  · rw [if_pos h0, if_pos (by exact_mod_cast h0 :
      ((img.data j : ℤ) = 0))]
    exact ⟨rfl, by omega⟩
  · rw [if_neg h0, if_neg (by exact_mod_cast h0 :
      ¬((img.data j : ℤ) = 0))]
    have hge : ∀ l ∈ layers, ∀ v,
        specLayerContrib (img.data (j - 3)) (img.data (j - 2))
          (img.data (j - 1)) l = some v → 0 ≤ v :=
      fun l hl v hv =>
        (specLayerContrib_range _ _ _ (ht l hl).1 (ht l hl).2 hv).1
    have hrange := runLayersNB_range (img.data (j - 3)) (img.data (j - 2))
      (img.data (j - 1)) (by omega : (0 : ℤ) ≤ (img.data j : ℤ))
      (by exact_mod_cast hbyte : ((img.data j : ℤ) ≤ 255)) ht
    rw [runLayers_eq_runLayersNB _ _ _ _ hge]
    refine ⟨?_, clampByte_le_255 _⟩
    rw [clampByte_coe hrange.1 hrange.2]
    exact runLayersNB_eq_specFold _ _ _ _ _

/-- Witness for C2 at a concrete pixel and layer list. -/
theorem compositor_refines_spec_witness :
    (3 % 4 = 3) ∧ 3 < sampleImg.len ∧
      (∀ l ∈ [sampleLayer2], l.isActive = true ∧ l.color.isSome = true) ∧
      (∀ l ∈ [sampleLayer2], 0 ≤ l.transparency ∧ l.transparency ≤ 100) ∧
      sampleImg.data 3 ≤ 255 ∧
      ((compositeData sampleImg [sampleLayer2] 3 : ℤ) =
        specPixelAlpha (sampleImg.data 0) (sampleImg.data 1)
          (sampleImg.data 2) (sampleImg.data 3) [sampleLayer2] ∧
        compositeData sampleImg [sampleLayer2] 3 ≤ 255) :=
  ⟨by decide, by decide, by decide, by decide, by decide,
    compositor_refines_spec sampleImg [sampleLayer2] (by decide) (by decide)
      (by decide) (by decide) (by decide)⟩

/-- C10: processMagicEraser is a total function of the embedding: for every
image, including zero-dimension images and buffers whose length disagrees
with 4 times width times height, and every parameter record, it returns an
image of the same width, height and buffer length; no failure value
exists anywhere in the pipeline. -/
theorem processMagicEraser_total_shape (img : ImageData)
    (p : ProcessingParams) :
    (processMagicEraser img p).width = img.width ∧
      (processMagicEraser img p).height = img.height ∧
      (processMagicEraser img p).len = img.len := by
  rw [processMagicEraser_eq]
  exact ⟨(applyChoke_width _ _).trans (eraserStage1_width _ _),
    (applyChoke_height _ _).trans (eraserStage1_height _ _),
    (applyChoke_len _ _).trans (eraserStage1_len _ _)⟩

end LogoShaper
